import Mathlib

/-!
A shallow embedding, over the rationals, of the polsim polarization-simulation
core (`simulation.rs`, `controller.rs`, `pdp.rs`), together with theorems
settling the specification claims about it.

Floating-point numbers are modelled by `ℚ` (exact real-number semantics; note
that `ℚ` division by zero yields `0` where `f64` yields an infinity or NaN —
theorems touching such divisions are stated so as not to depend on that value).
The transcendental primitives used by the source (`f64::exp`, `f64::tanh`, and
the constant `sqrt(2π)`) are abstracted into a `SpecialFns` interface; every
theorem below is quantified over an arbitrary interpretation, so nothing proved
depends on analytic properties of those functions.

The process-wide random source (`rand::random`) is modelled by an explicit
stream `ℕ → ℚ` (or `ℕ → Bool` for coin flips) together with an index threaded
through the state; two runs with different streams model two runs with
different random draws.
-/

namespace Polsim

/-- Abstract interpretation of the transcendental primitives used by the
source: `exp` for `f64::exp`, `tanh` for `f64::tanh`, and `sqrt2pi` for the
value of `(2.0 * PI).sqrt()`. -/
structure SpecialFns where
  exp : ℚ → ℚ
  tanh : ℚ → ℚ
  sqrt2pi : ℚ

/-- Elementary charge (in C), `ELEM_CHARGE` in simulation.rs. -/
def ELEM_CHARGE : ℚ := 1.602176662e-19

/-- Parameters for the alpha/beta vs frequency fit (simulation.rs). -/
def FIT_A : ℚ := 0.545266

def FIT_S : ℚ := 0.088415

def FIT_M1_BASE : ℚ := 140.286

def FIT_M1_COEFF : ℚ := 0.045

def FIT_M1_RATE : ℚ := -0.38e-15

def FIT_M2_BASE : ℚ := 140.468

def FIT_M2_COEFF : ℚ := -0.065

def FIT_M2_RATE : ℚ := -3.8e-15

/-- Outer time increment, `TIME_STEP` in simulation.rs. -/
def TIME_STEP : ℚ := 1.0

/-- Number of Euler substeps per outer increment, `N_ITER` in simulation.rs. -/
def N_ITER : ℕ := 1000

def THERMAL_RANDOMNESS : ℚ := 0.02

def BASE_RANDOMNESS : ℚ := 0.002

def IRRADIATION_FACTOR : ℚ := 1e-10

/-- The state of `struct Simulation` (simulation.rs), plus `rngIdx`, the
position in the modelled random stream (the source uses the process-wide
`rand::random`, which we model by indexing an explicit stream). -/
@[ext]
structure Sim where
  t1n : ℚ
  t1e : ℚ
  t : ℚ
  freq : ℚ
  temperature : ℚ
  system_temperature : ℚ
  alpha : ℚ
  beta : ℚ
  c : ℚ
  pe0 : ℚ
  phi : ℚ
  pn_raw : ℚ
  pn : ℚ
  pe : ℚ
  dose : ℚ
  beam_current : ℚ
  rngIdx : ℕ
deriving Repr, DecidableEq

/-- The observable snapshot, `struct SimData` (simulation.rs). -/
@[ext]
structure SimData where
  time : ℚ
  pn : ℚ
  pe : ℚ
  frequency : ℚ
  c : ℚ
  temperature : ℚ
  dose : ℚ
deriving Repr, DecidableEq

/-- The builder state, `struct SimBuilder` (simulation.rs). -/
structure SimBuilder where
  freq : ℚ
  pn : ℚ
  pe : ℚ
  c : ℚ
  temperature : ℚ
  t1n : ℚ
  t1e : ℚ

/-- Default builder, `SimBuilder::new` (simulation.rs). -/
def SimBuilder.new (freq : ℚ) : SimBuilder :=
  { freq := freq
    pn := 0.0
    pe := -1.0
    c := 0.000136073
    temperature := 1.0
    t1n := 25.0 * 60.0
    t1e := 0.03 }

/-- The body of `Simulation::calc_transition_rates` (simulation.rs), factored
as a pure function of the only state fields it reads (`freq` and `dose`);
returns the pair `(alpha, beta)`. -/
def transitionRatesAB (F : SpecialFns) (freq dose : ℚ) : ℚ × ℚ :=
  let fit_m1 := (FIT_M1_BASE - FIT_M1_COEFF) + FIT_M1_COEFF * F.exp (FIT_M1_RATE * dose)
  let fit_m2 := (FIT_M2_BASE - FIT_M2_COEFF) + FIT_M2_COEFF * F.exp (FIT_M2_RATE * dose)
  let scale := FIT_A / (F.sqrt2pi * FIT_S)
  let diff1 := freq - fit_m1
  let diff2 := freq - fit_m2
  let exp1 := F.exp (-diff1 * diff1 / (2.0 * FIT_S * FIT_S))
  let exp2 := F.exp (-diff2 * diff2 / (2.0 * FIT_S * FIT_S))
  (scale * exp2, scale * exp1)

/-- `Simulation::calc_transition_rates` (simulation.rs): recompute `alpha` and
`beta` from the current `freq` and `dose`. -/
def calc_transition_rates (F : SpecialFns) (s : Sim) : Sim :=
  { s with
    alpha := (transitionRatesAB F s.freq s.dose).1
    beta := (transitionRatesAB F s.freq s.dose).2 }

/-- `Simulation::set_freq` (simulation.rs). -/
def set_freq (F : SpecialFns) (freq : ℚ) (s : Sim) : Sim :=
  calc_transition_rates F { s with freq := freq }

/-- `Simulation::set_system_temperature` (simulation.rs). -/
def set_system_temperature (temperature : ℚ) (s : Sim) : Sim :=
  { s with system_temperature := temperature }

/-- `Simulation::beam_on` (simulation.rs). -/
def beam_on (current : ℚ) (s : Sim) : Sim :=
  { s with beam_current := current }

/-- `Simulation::beam_off` (simulation.rs). -/
def beam_off (s : Sim) : Sim :=
  { s with beam_current := 0.0 }

/-- `Simulation::set_temperature` (simulation.rs, private). -/
def set_temperature (F : SpecialFns) (temperature : ℚ) (s : Sim) : Sim :=
  { s with
    pe0 := -F.tanh (2.0 / temperature)
    temperature := temperature }

/-- `Simulation::take_data` (simulation.rs). -/
def take_data (s : Sim) : SimData :=
  { time := s.t
    pn := s.pn
    pe := s.pe
    frequency := s.freq
    c := s.c
    temperature := s.temperature
    dose := s.dose }

/-- `SimBuilder::build` (simulation.rs): assemble the state, then run the
initialization calls `set_freq`, `set_temperature`, `beam_off`. -/
def SimBuilder.build (F : SpecialFns) (b : SimBuilder) : Sim :=
  let sim : Sim :=
    { t1n := b.t1n
      t1e := b.t1e
      t := 0.0
      freq := b.freq
      temperature := b.temperature
      system_temperature := b.temperature
      alpha := 0.0
      beta := 0.0
      c := b.c
      pe0 := 0.0
      phi := 0.0
      pn_raw := b.pn
      pn := b.pn
      pe := b.pe
      dose := 0.0
      beam_current := 0.0
      rngIdx := 0 }
  beam_off (set_temperature F b.temperature (set_freq F b.freq sim))

/-- One iteration of the Euler loop inside `Simulation::time_step`
(simulation.rs).  The loop-invariant quantities `k_temp`, `temp_ss`, `k_phi`,
`phi_ss` are computed before the loop in the source and passed in here. -/
def substep (F : SpecialFns) (k_temp temp_ss k_phi phi_ss : ℚ) (s : Sim) : Sim :=
  let a_const := -s.t1e / s.t1n - (s.c / 2.0) * (s.alpha + s.beta) - s.phi
  let b_const := (s.c / 2.0) * (s.alpha - s.beta)
  let c_const := (s.alpha - s.beta) / 2.0
  let d_const := -1.0 - (s.alpha + s.beta) / 2.0
  let pn_prime := (a_const * s.pn_raw + b_const * s.pe) / s.t1e
  let pe_prime := (c_const * s.pn_raw + d_const * s.pe + s.pe0) / s.t1e
  let time_amt := TIME_STEP / (N_ITER : ℚ)
  let s1 := { s with pn_raw := s.pn_raw + pn_prime * time_amt, pe := s.pe + pe_prime * time_amt }
  let s2 := set_temperature F (s1.temperature + time_amt * k_temp * (temp_ss - s1.temperature)) s1
  let s3 := { s2 with phi := s2.phi + time_amt * k_phi * (phi_ss - s2.phi) }
  let s4 := { s3 with
    c := s3.c + IRRADIATION_FACTOR * s3.beam_current * time_amt
    dose := s3.dose + (s3.beam_current * 1e-9 / ELEM_CHARGE) * time_amt }
  let s5 := calc_transition_rates F s4
  { s5 with t := s5.t + time_amt }

/-- The noisy-polarization computation of `Simulation::pn_noisy`
(simulation.rs), as a pure function of the raw polarization and the two
uniform draws. -/
def pn_noisy (pn_raw draw1 draw2 : ℚ) : ℚ :=
  let thermal_noise := THERMAL_RANDOMNESS * (0.5 - draw1)
  let uniform_noise := BASE_RANDOMNESS * (0.5 - draw2)
  pn_raw * (1.0 + thermal_noise) + uniform_noise

/-- `Simulation::time_step` (simulation.rs): `N_ITER` Euler substeps, then the
observable `pn` is refreshed from `pn_raw` with two fresh random draws. -/
def time_step (F : SpecialFns) (rng : ℕ → ℚ) (s : Sim) : Sim :=
  let k_temp : ℚ := 0.01
  let temp_ss := s.system_temperature + s.beam_current / 100.0
  let k_phi := s.beam_current / 1e7
  let phi_ss : ℚ := 0.001
  let s1 := (substep F k_temp temp_ss k_phi phi_ss)^[N_ITER] s
  { s1 with
    pn := pn_noisy s1.pn_raw (rng s1.rngIdx) (rng (s1.rngIdx + 1))
    rngIdx := s1.rngIdx + 2 }

theorem substep_t (F : SpecialFns) (a b c d : ℚ) (s : Sim) :
    (substep F a b c d s).t = s.t + TIME_STEP / (N_ITER : ℚ) := rfl

theorem iterate_substep_t (F : SpecialFns) (a b c d : ℚ) (s : Sim) (n : ℕ) :
    ((substep F a b c d)^[n] s).t = s.t + n * (TIME_STEP / (N_ITER : ℚ)) := by
  induction n generalizing s with
  | zero => simp
  | succ n ih =>
    rw [Function.iterate_succ_apply, ih, substep_t]
    push_cast
    ring

theorem time_step_t (F : SpecialFns) (rng : ℕ → ℚ) (s : Sim) :
    (time_step F rng s).t = s.t + 1 := by
  simp only [time_step]
  rw [iterate_substep_t]
  norm_num [TIME_STEP, N_ITER]

theorem iterate_time_step_t (F : SpecialFns) (rng : ℕ → ℚ) (s : Sim) (n : ℕ) :
    ((time_step F rng)^[n] s).t = s.t + n := by
  induction n generalizing s with
  | zero => simp
  | succ n ih =>
    rw [Function.iterate_succ_apply, ih, time_step_t]
    push_cast
    ring

theorem ceil_pred_lt (x : ℚ) (hx : 0 < x) : Nat.ceil (x - 1) < Nat.ceil x := by
  have hc : 0 < Nat.ceil x := Nat.ceil_pos.mpr hx
  have hle : Nat.ceil (x - 1) ≤ Nat.ceil x - 1 := by
    rw [Nat.ceil_le, Nat.cast_sub hc]
    have := Nat.le_ceil x
    push_cast
    linarith
  omega

theorem ceil_eq_pred_succ (x : ℚ) (hx : 0 < x) : Nat.ceil x = Nat.ceil (x - 1) + 1 := by
  have h1 : Nat.ceil (x - 1) + 1 ≤ Nat.ceil x := ceil_pred_lt x hx
  have h2 : Nat.ceil x ≤ Nat.ceil (x - 1) + 1 := by
    rw [Nat.ceil_le]
    have := Nat.le_ceil (x - 1)
    push_cast
    linarith
  omega

/-- The iterator `RunUntil` of simulation.rs, fully consumed: `next()` checks
`sim.t < t_final`; while it holds it yields the pre-step snapshot
(`take_data`), then advances the state with `time_step`.  Returns the list of
yielded snapshots and the final simulation state. -/
def run_until (F : SpecialFns) (rng : ℕ → ℚ) (t_final : ℚ) (s : Sim) :
    List SimData × Sim :=
  if h : s.t < t_final then
    let rest := run_until F rng t_final (time_step F rng s)
    (take_data s :: rest.1, rest.2)
  else ([], s)
termination_by Nat.ceil (t_final - s.t)
decreasing_by
  rw [time_step_t]
  have heq : t_final - (s.t + 1) = (t_final - s.t) - 1 := by ring
  rw [heq]
  exact ceil_pred_lt _ (by linarith)

/-- `Simulation::run_for` (simulation.rs): run until the current time plus the
given duration. -/
def run_for (F : SpecialFns) (rng : ℕ → ℚ) (time : ℚ) (s : Sim) :
    List SimData × Sim :=
  let t := s.t
  run_until F rng (t + time) s

/-- `Simulation::anneal` (simulation.rs).  The source resets `phi`, scales
`t1n` by 0.8, saves `system_temperature`, overrides it, evaluates the
expression `self.run_until(t + time)` — which only constructs a `RunUntil`
iterator and immediately drops it without ever calling `next()`, so no time
step executes — and then restores the saved `system_temperature`. -/
def anneal (F : SpecialFns) (time temperature : ℚ) (s : Sim) : Sim :=
  let s1 := { s with phi := 0.0 }
  let s2 := { s1 with t1n := s1.t1n * 0.8 }
  let temp_tmp := s2.system_temperature
  let s3 := set_system_temperature temperature s2
  set_system_temperature temp_tmp s3

theorem run_until_unfold (F : SpecialFns) (rng : ℕ → ℚ) (t_final : ℚ) (s : Sim) :
    run_until F rng t_final s =
      if s.t < t_final then
        (take_data s :: (run_until F rng t_final (time_step F rng s)).1,
          (run_until F rng t_final (time_step F rng s)).2)
      else ([], s) := by
  rw [run_until]
  split <;> rfl

theorem run_until_get? (F : SpecialFns) (rng : ℕ → ℚ) (t_final : ℚ) (i : ℕ)
    (s : Sim) :
    (run_until F rng t_final s).1.get? i =
      if s.t + (i : ℚ) < t_final then
        some (take_data ((time_step F rng)^[i] s))
      else none := by
  induction i generalizing s with
  | zero =>
    rw [run_until_unfold]
    by_cases h : s.t < t_final
    · rw [if_pos h]
      simp [h]
    · rw [if_neg h]
      simp [h]
  | succ i ih =>
    rw [run_until_unfold]
    by_cases h : s.t < t_final
    · rw [if_pos h]
      have lhs : (take_data s :: (run_until F rng t_final (time_step F rng s)).1,
          (run_until F rng t_final (time_step F rng s)).2).1.get? (i + 1) =
          (run_until F rng t_final (time_step F rng s)).1.get? i := rfl
      rw [lhs, ih, time_step_t, ← Function.iterate_succ_apply]
      have hc : s.t + 1 + (i : ℚ) = s.t + ((i : ℕ) + 1 : ℕ) := by push_cast; ring
      rw [hc]
    · rw [if_neg h]
      have hno : ¬ (s.t + ((i : ℕ) + 1 : ℕ) : ℚ) + 0 ≤ t_final := by
        push_cast
        push_neg at h
        intro hcon
        nlinarith
      simp only [List.get?_nil]
      rw [if_neg]
      push_cast
      push_neg at h
      intro hcon
      nlinarith [h]

theorem run_until_snd_aux (F : SpecialFns) (rng : ℕ → ℚ) (t_final : ℚ) :
    ∀ (n : ℕ) (s : Sim), Nat.ceil (t_final - s.t) = n →
      (run_until F rng t_final s).2 = (time_step F rng)^[n] s := by
  intro n
  induction n with
  | zero =>
    intro s hn
    have hle : t_final - s.t ≤ 0 := by
      by_contra hpos
      push_neg at hpos
      have := Nat.ceil_pos.mpr hpos
      omega
    rw [run_until_unfold, if_neg (by linarith)]
    simp
  | succ n ih =>
    intro s hn
    have hpos : 0 < t_final - s.t := by
      by_contra hle
      push_neg at hle
      rw [Nat.ceil_eq_zero.mpr hle] at hn
      omega
    rw [run_until_unfold, if_pos (by linarith)]
    have hnext : Nat.ceil (t_final - (time_step F rng s).t) = n := by
      rw [time_step_t]
      have heq : t_final - (s.t + 1) = (t_final - s.t) - 1 := by ring
      rw [heq]
      have := ceil_eq_pred_succ (t_final - s.t) hpos
      omega
    rw [ih (time_step F rng s) hnext, ← Function.iterate_succ_apply]

theorem run_until_snd (F : SpecialFns) (rng : ℕ → ℚ) (t_final : ℚ) (s : Sim) :
    (run_until F rng t_final s).2 =
      (time_step F rng)^[Nat.ceil (t_final - s.t)] s :=
  run_until_snd_aux F rng t_final _ s rfl

theorem run_until_snd_t (F : SpecialFns) (rng : ℕ → ℚ) (t_final : ℚ) (s : Sim) :
    (run_until F rng t_final s).2.t = s.t + Nat.ceil (t_final - s.t) := by
  rw [run_until_snd, iterate_time_step_t]

/-- Trivial interpretation of the transcendental primitives, used for
concrete instantiations. -/
def trivialFns : SpecialFns :=
  { exp := fun _ => 1, tanh := fun _ => 1, sqrt2pi := 1 }

/-- Constant-zero random stream, used for concrete instantiations. -/
def zeroRng : ℕ → ℚ := fun _ => 0

/-- A concretely built simulation (the end-to-end scenario frequency). -/
def sampleSim : Sim := SimBuilder.build trivialFns (SimBuilder.new 140.15)

/-- C1: `anneal(duration, temperature)` resets the damage accumulator `phi`,
scales `t1n` by 0.8, and ends with `system_temperature` equal to its prior
value — but, contrary to the claim, it leaves the simulation clock `t`
unchanged instead of advancing it by `duration`: the `RunUntil` iterator that
`anneal` constructs is dropped without ever being consumed, so no time step
executes. -/
theorem anneal_skips_time_advance (F : SpecialFns) (dur temp : ℚ) (s : Sim) :
    (anneal F dur temp s).t = s.t ∧
    (anneal F dur temp s).phi = 0 ∧
    (anneal F dur temp s).t1n = s.t1n * 0.8 ∧
    (anneal F dur temp s).system_temperature = s.system_temperature := by
  refine ⟨rfl, ?_, rfl, rfl⟩
  show (0.0 : ℚ) = 0
  norm_num

/-- C2: fully consuming `run_for(d)` started at time `t0` yields exactly the
snapshots taken before each integration step: element `i` exists iff
`t0 + i < t0 + d` and is the pre-step snapshot of the `i`-times-stepped state;
hence the reported times are `t0 + i`, lie in `[t0, t0 + d)`, are strictly
increasing, and consecutive ones are spaced by exactly the outer increment
1.0. -/
theorem run_for_snapshot_times (F : SpecialFns) (rng : ℕ → ℚ) (s : Sim) (d : ℚ)
    (hd : 0 < d) :
    (∀ i : ℕ, (run_for F rng d s).1.get? i =
        if s.t + (i : ℚ) < s.t + d then
          some (take_data ((time_step F rng)^[i] s))
        else none) ∧
    (run_for F rng d s).1.get? 0 = some (take_data s) ∧
    (∀ i : ℕ, ∀ x : SimData, (run_for F rng d s).1.get? i = some x →
        x.time = s.t + (i : ℚ) ∧ s.t ≤ x.time ∧ x.time < s.t + d) ∧
    (∀ i : ℕ, ∀ x y : SimData, (run_for F rng d s).1.get? i = some x →
        (run_for F rng d s).1.get? (i + 1) = some y →
        y.time = x.time + 1 ∧ x.time < y.time) := by
  have key : ∀ i : ℕ, (run_for F rng d s).1.get? i =
      if s.t + (i : ℚ) < s.t + d then
        some (take_data ((time_step F rng)^[i] s))
      else none := by
    intro i
    simp only [run_for]
    exact run_until_get? F rng (s.t + d) i s
  have times : ∀ i : ℕ, ∀ x : SimData, (run_for F rng d s).1.get? i = some x →
      x.time = s.t + (i : ℚ) ∧ s.t ≤ x.time ∧ x.time < s.t + d := by
    intro i x hx
    rw [key i] at hx
    by_cases hc : s.t + (i : ℚ) < s.t + d
    · rw [if_pos hc] at hx
      have hxeq : x = take_data ((time_step F rng)^[i] s) := by
        injection hx with h
        exact h.symm
      have htime : x.time = s.t + (i : ℚ) := by
        rw [hxeq]
        show ((time_step F rng)^[i] s).t = s.t + (i : ℚ)
        exact iterate_time_step_t F rng s i
      refine ⟨htime, ?_, ?_⟩
      · rw [htime]
        have : (0 : ℚ) ≤ (i : ℚ) := Nat.cast_nonneg i
        linarith
      · rw [htime]
        exact hc
    · rw [if_neg hc] at hx
      exact absurd hx (by simp)
  refine ⟨key, ?_, times, ?_⟩
  · rw [key 0]
    have hc : s.t + ((0 : ℕ) : ℚ) < s.t + d := by push_cast; linarith
    rw [if_pos hc]
    simp
  · intro i x y hx hy
    obtain ⟨hxt, -, -⟩ := times i x hx
    obtain ⟨hyt, -, -⟩ := times (i + 1) y hy
    constructor
    · rw [hxt, hyt]
      push_cast
      ring
    · rw [hxt, hyt]
      push_cast
      linarith

/-- Witness for C2 at a concrete simulation, duration 2, discharging the
positivity hypothesis. -/
theorem run_for_snapshot_times_witness :
    (0 : ℚ) < 2 ∧
    ((∀ i : ℕ, (run_for trivialFns zeroRng 2 sampleSim).1.get? i =
        if sampleSim.t + (i : ℚ) < sampleSim.t + 2 then
          some (take_data ((time_step trivialFns zeroRng)^[i] sampleSim))
        else none) ∧
    (run_for trivialFns zeroRng 2 sampleSim).1.get? 0 = some (take_data sampleSim) ∧
    (∀ i : ℕ, ∀ x : SimData, (run_for trivialFns zeroRng 2 sampleSim).1.get? i = some x →
        x.time = sampleSim.t + (i : ℚ) ∧ sampleSim.t ≤ x.time ∧ x.time < sampleSim.t + 2) ∧
    (∀ i : ℕ, ∀ x y : SimData, (run_for trivialFns zeroRng 2 sampleSim).1.get? i = some x →
        (run_for trivialFns zeroRng 2 sampleSim).1.get? (i + 1) = some y →
        y.time = x.time + 1 ∧ x.time < y.time)) :=
  ⟨by norm_num, run_for_snapshot_times trivialFns zeroRng sampleSim 2 (by norm_num)⟩

/-- The decision record `struct ControllerData` (controller.rs). -/
@[ext]
structure ControllerData where
  sim_data : SimData
  rate : ℚ
deriving Repr, DecidableEq

/-- Current time of a controller state, as read by `ControlUntil::next`
(controller.rs): `self.controller.take_data().sim_data.time`. -/
def ctrl_time {σ : Type} (td : σ → ControllerData) (s : σ) : ℚ :=
  (td s).sim_data.time

/-- The iterator `ControlUntil` of controller.rs, fully consumed, generic over
the controller implementation exactly as the source is generic over
`T: Controller`: the implementation supplies `take_data` (`td`) and
`control_step` (`step`).  `hstep` states that one control step advances the
reported time by at least one unit; both implementations in the source satisfy
it (each step consumes `run_for(1.0)` twice and `run_for(5.0)` once), and it
makes the consumed sequence finite.  `next()` first checks whether the current
time is strictly greater than `t_final` (stopping without a step if so) and
otherwise performs exactly one `control_step` and yields its record. -/
def control_until {σ : Type} (td : σ → ControllerData)
    (step : σ → ControllerData × σ)
    (hstep : ∀ x : σ, ctrl_time td x + 1 ≤ ctrl_time td (step x).2)
    (t_final : ℚ) (s : σ) : List ControllerData :=
  if h : ctrl_time td s > t_final then []
  else (step s).1 :: control_until td step hstep t_final (step s).2
termination_by Nat.ceil (t_final + 1 - ctrl_time td s)
decreasing_by
  push_neg at h
  have hs := hstep s
  have hA : Nat.ceil (t_final + 1 - ctrl_time td (step s).2)
      ≤ Nat.ceil (t_final - ctrl_time td s) := Nat.ceil_mono (by linarith)
  have hB : Nat.ceil (t_final - ctrl_time td s)
      < Nat.ceil (t_final + 1 - ctrl_time td s) := by
    have heq : t_final - ctrl_time td s = (t_final + 1 - ctrl_time td s) - 1 := by
      ring
    rw [heq]
    exact ceil_pred_lt _ (by linarith)
  omega

/-- Controller-state successor: the state component of one control step. -/
def iter_step {σ : Type} (step : σ → ControllerData × σ) : σ → σ :=
  fun s => (step s).2

theorem control_until_unfold {σ : Type} (td : σ → ControllerData)
    (step : σ → ControllerData × σ)
    (hstep : ∀ x : σ, ctrl_time td x + 1 ≤ ctrl_time td (step x).2)
    (t_final : ℚ) (s : σ) :
    control_until td step hstep t_final s =
      if ctrl_time td s > t_final then []
      else (step s).1 :: control_until td step hstep t_final (step s).2 := by
  rw [control_until]
  split <;> rfl

/-- C3: element `i` of the fully consumed `control_until(t_final)` sequence
exists exactly when at every stage `j ≤ i` the pre-check found the current
time not strictly greater than `t_final`, and in that case it is the record
returned by the single `control_step` performed at stage `i`; when the current
time is already strictly greater, the sequence ends without performing a
step.  Stated generically over the controller implementation, as the source
iterator is. -/
theorem control_until_element_spec {σ : Type} (td : σ → ControllerData)
    (step : σ → ControllerData × σ)
    (hstep : ∀ x : σ, ctrl_time td x + 1 ≤ ctrl_time td (step x).2)
    (t_final : ℚ) (i : ℕ) (s : σ) :
    (control_until td step hstep t_final s).get? i =
      if ∀ j : ℕ, j ≤ i → ctrl_time td ((iter_step step)^[j] s) ≤ t_final then
        some (step ((iter_step step)^[i] s)).1
      else none := by
  induction i generalizing s with
  | zero =>
    rw [control_until_unfold]
    by_cases h : ctrl_time td s > t_final
    · rw [if_pos h, if_neg]
      · rfl
      · intro hall
        exact absurd (hall 0 (Nat.le_refl 0)) (by simpa using not_le.mpr h)
    · rw [if_neg h, if_pos]
      · rfl
      · intro j hj
        have hj0 : j = 0 := Nat.le_zero.mp hj
        subst hj0
        simpa using le_of_not_lt h
  | succ i ih =>
    rw [control_until_unfold]
    by_cases h : ctrl_time td s > t_final
    · rw [if_pos h, if_neg]
      · rfl
      · intro hall
        exact absurd (hall 0 (Nat.zero_le _)) (by simpa using not_le.mpr h)
    · rw [if_neg h]
      have hcons : ((step s).1 :: control_until td step hstep t_final (step s).2).get? (i + 1)
          = (control_until td step hstep t_final (step s).2).get? i := rfl
      rw [hcons, ih]
      have hss : (step s).2 = iter_step step s := rfl
      rw [hss]
      have hiter : ∀ j : ℕ, (iter_step step)^[j] ((iter_step step) s)
          = (iter_step step)^[j + 1] s := by
        intro j
        rw [Function.iterate_succ_apply]
      have hcond : (∀ j : ℕ, j ≤ i → ctrl_time td ((iter_step step)^[j] (iter_step step s)) ≤ t_final)
          ↔ (∀ j : ℕ, j ≤ i + 1 → ctrl_time td ((iter_step step)^[j] s) ≤ t_final) := by
        constructor
        · intro hall j hj
          match j with
          | 0 => simpa using le_of_not_lt h
          | Nat.succ k =>
            have hk : k ≤ i := Nat.succ_le_succ_iff.mp hj
            have := hall k hk
            rwa [hiter k] at this
        · intro hall j hj
          have := hall (j + 1) (Nat.succ_le_succ hj)
          rwa [← hiter j] at this
      rw [if_congr hcond (by rw [hiter i]) rfl]

/-- The effect of `for _ in sim.run_for(time) {}` (controller.rs): the
iterator is fully consumed and its yielded data discarded. -/
def run_for_drop (F : SpecialFns) (rng : ℕ → ℚ) (time : ℚ) (s : Sim) : Sim :=
  (run_for F rng time s).2

/-- `StdControllerFn::calc_rate` (controller.rs): midpoint-slope strategy. -/
def std_calc_rate (d1 d2 d3 : SimData) : ℚ :=
  let p1 := (d2.pn + d1.pn) / 2.0
  let p2 := (d3.pn + d2.pn) / 2.0
  let e1 := (d2.time + d1.time) / 2.0
  let e2 := (d3.time + d2.time) / 2.0
  (p2 - p1) / (e2 - e1)

/-- `StdControllerFn2::calc_rate` (controller.rs): two-slope-average
strategy. -/
def std2_calc_rate (d1 d2 d3 : SimData) : ℚ :=
  let r1 := (d2.pn - d1.pn) / (d2.time - d1.time)
  let r2 := (d3.pn - d2.pn) / (d3.time - d2.time)
  (r1 + r2) / 2.0

/-- The Vandermonde determinant `det` of `KValControllerFn::calc_rate`
(controller.rs). -/
def kval_det (d1 d2 d3 : SimData) : ℚ :=
  (d1.time - d3.time) * (d2.time - d3.time) * (d1.time - d2.time)

/-- The quadratic leading coefficient `a` of `KValControllerFn::calc_rate`
(controller.rs). -/
def kval_a (d1 d2 d3 : SimData) : ℚ :=
  (d1.pn * (d2.time - d3.time) + d2.pn * (d3.time - d1.time) +
      d3.pn * (d1.time - d2.time)) / kval_det d1 d2 d3

/-- The linear coefficient `b` of `KValControllerFn::calc_rate`
(controller.rs). -/
def kval_b (d1 d2 d3 : SimData) : ℚ :=
  (d1.pn * (d3.time * d3.time - d2.time * d2.time) +
      d2.pn * (d1.time * d1.time - d3.time * d3.time) +
      d3.pn * (d2.time * d2.time - d1.time * d1.time)) / kval_det d1 d2 d3

/-- The `first_deriv` local of `KValControllerFn::calc_rate` (controller.rs):
the fitted quadratic's derivative at the middle time. -/
def kval_first_deriv (d1 d2 d3 : SimData) : ℚ :=
  2.0 * kval_a d1 d2 d3 * d2.time + kval_b d1 d2 d3

/-- The `second_deriv` local of `KValControllerFn::calc_rate`
(controller.rs): twice the fitted quadratic's leading coefficient. -/
def kval_second_deriv (d1 d2 d3 : SimData) : ℚ :=
  2.0 * kval_a d1 d2 d3

/-- `KValControllerFn::calc_rate` (controller.rs): steady-state extrapolation
`ss = y2 - first_deriv^2 / second_deriv`, with the division performed
unconditionally (no floor, sign check, or guard on `second_deriv`). -/
def kval_calc_rate (d1 d2 d3 : SimData) : ℚ :=
  d2.pn - kval_first_deriv d1 d2 d3 * kval_first_deriv d1 d2 d3 /
    kval_second_deriv d1 d2 d3

/-- The state of `ThreePointController<T>` (controller.rs); the type-level
strategy parameter `T` becomes an explicit function argument of
`TPC.controlStep` below. -/
structure TPC where
  sim : Sim
  last_rate : ℚ
  direction : Bool
  step_size : ℚ

/-- `Controller::from_sim` for `ThreePointController` (controller.rs). -/
def TPC.from_sim (sim : Sim) : TPC :=
  { sim := sim, last_rate := 0.0, direction := true, step_size := 0.03 }

/-- `Controller::take_data` for `ThreePointController` (controller.rs). -/
def TPC.takeData (c : TPC) : ControllerData :=
  { sim_data := take_data c.sim, rate := c.last_rate }

/-- `Controller::control_step` for `ThreePointController` (controller.rs),
with the strategy `T::calc_rate` passed as the function `calc_rate`. -/
def TPC.controlStep (F : SpecialFns) (rng : ℕ → ℚ)
    (calc_rate : SimData → SimData → SimData → ℚ) (c : TPC) :
    ControllerData × TPC :=
  let d1 := take_data c.sim
  let sim1 := run_for_drop F rng 1.0 c.sim
  let d2 := take_data sim1
  let sim2 := run_for_drop F rng 1.0 sim1
  let d3 := take_data sim2
  let rate := calc_rate d1 d2 d3
  let direction := if rate < c.last_rate then !c.direction else c.direction
  let step_size :=
    if rate < c.last_rate then
      let ss := c.step_size * 0.8
      if ss < 0.001 then 0.001 else ss
    else c.step_size
  let last_rate := rate
  let step := if direction then step_size else -step_size
  let sim3 := set_freq F (d3.frequency + step) sim2
  let sim4 := run_for_drop F rng 5.0 sim3
  ({ sim_data := d3, rate := rate },
    { sim := sim4, last_rate := last_rate, direction := direction, step_size := step_size })

/-- The state of `RandController` (controller.rs), plus `coinIdx`, the
position in the modelled coin-flip stream (`rand::random::<bool>()`). -/
structure RandC where
  sim : Sim
  last_rate : ℚ
  direction : Bool
  step_size : ℚ
  coinIdx : ℕ

/-- `Controller::from_sim` for `RandController` (controller.rs). -/
def RandC.from_sim (sim : Sim) : RandC :=
  { sim := sim, last_rate := 0.0, direction := true, step_size := 0.03, coinIdx := 0 }

/-- `Controller::take_data` for `RandController` (controller.rs). -/
def RandC.takeData (c : RandC) : ControllerData :=
  { sim_data := take_data c.sim, rate := c.last_rate }

/-- `Controller::control_step` for `RandController` (controller.rs): the
measured-rate logic is replaced by a coin flip, the yielded rate is the
literal 0.0, and `last_rate` is never written. -/
def RandC.controlStep (F : SpecialFns) (rng : ℕ → ℚ) (coin : ℕ → Bool)
    (c : RandC) : ControllerData × RandC :=
  let sim1 := run_for_drop F rng 1.0 c.sim
  let sim2 := run_for_drop F rng 1.0 sim1
  let d3 := take_data sim2
  let direction := if coin c.coinIdx then !c.direction else c.direction
  let step_size :=
    if coin c.coinIdx then
      let ss := c.step_size * 0.8
      if ss < 0.001 then 0.001 else ss
    else c.step_size
  let step := if direction then step_size else -step_size
  let sim3 := set_freq F (d3.frequency + step) sim2
  let sim4 := run_for_drop F rng 5.0 sim3
  ({ sim_data := d3, rate := 0.0 },
    { sim := sim4, last_rate := c.last_rate, direction := direction,
      step_size := step_size, coinIdx := c.coinIdx + 1 })

theorem set_freq_t (F : SpecialFns) (f : ℚ) (s : Sim) : (set_freq F f s).t = s.t := rfl

theorem run_for_drop_t (F : SpecialFns) (rng : ℕ → ℚ) (d : ℚ) (s : Sim) :
    (run_for_drop F rng d s).t = s.t + Nat.ceil d := by
  simp only [run_for_drop, run_for]
  rw [run_until_snd_t]
  have : s.t + d - s.t = d := by ring
  rw [this]

theorem tpc_controlStep_sim_t (F : SpecialFns) (rng : ℕ → ℚ)
    (calc_rate : SimData → SimData → SimData → ℚ) (c : TPC) :
    ((TPC.controlStep F rng calc_rate c).2).sim.t = c.sim.t + 7 := by
  simp only [TPC.controlStep]
  rw [run_for_drop_t, set_freq_t, run_for_drop_t, run_for_drop_t]
  norm_num
  ring

theorem rand_controlStep_sim_t (F : SpecialFns) (rng : ℕ → ℚ) (coin : ℕ → Bool)
    (c : RandC) :
    ((RandC.controlStep F rng coin c).2).sim.t = c.sim.t + 7 := by
  simp only [RandC.controlStep]
  rw [run_for_drop_t, set_freq_t, run_for_drop_t, run_for_drop_t]
  norm_num
  ring

/-- Both controller implementations advance the reported time by 7.0 per
step, hence satisfy the progress hypothesis of `control_until`. -/
theorem tpc_progress (F : SpecialFns) (rng : ℕ → ℚ)
    (calc_rate : SimData → SimData → SimData → ℚ) :
    ∀ c : TPC, ctrl_time TPC.takeData c + 1 ≤
      ctrl_time TPC.takeData ((TPC.controlStep F rng calc_rate c).2) := by
  intro c
  show c.sim.t + 1 ≤ ((TPC.controlStep F rng calc_rate c).2).sim.t
  rw [tpc_controlStep_sim_t]
  linarith

theorem rand_progress (F : SpecialFns) (rng : ℕ → ℚ) (coin : ℕ → Bool) :
    ∀ c : RandC, ctrl_time RandC.takeData c + 1 ≤
      ctrl_time RandC.takeData ((RandC.controlStep F rng coin c).2) := by
  intro c
  show c.sim.t + 1 ≤ ((RandC.controlStep F rng coin c).2).sim.t
  rw [rand_controlStep_sim_t]
  linarith

/-- `Controller::control_until` instantiated at `ThreePointController`. -/
def TPC.controlUntil (F : SpecialFns) (rng : ℕ → ℚ)
    (calc_rate : SimData → SimData → SimData → ℚ) (t_final : ℚ) (c : TPC) :
    List ControllerData :=
  control_until TPC.takeData (TPC.controlStep F rng calc_rate)
    (tpc_progress F rng calc_rate) t_final c

/-- `Controller::control_until` instantiated at `RandController`. -/
def RandC.controlUntil (F : SpecialFns) (rng : ℕ → ℚ) (coin : ℕ → Bool)
    (t_final : ℚ) (c : RandC) : List ControllerData :=
  control_until RandC.takeData (RandC.controlStep F rng coin)
    (rand_progress F rng coin) t_final c

/-- Toy controller implementation used only to witness the generic
`control_until` theorem on a concrete input. -/
def toyTd : ℚ → ControllerData :=
  fun t => { sim_data := { time := t, pn := 0, pe := 0, frequency := 0, c := 0,
                           temperature := 0, dose := 0 }, rate := 0 }

def toyStep : ℚ → ControllerData × ℚ :=
  fun t => (toyTd (t + 1), t + 1)

theorem toyStep_progress :
    ∀ x : ℚ, ctrl_time toyTd x + 1 ≤ ctrl_time toyTd (toyStep x).2 :=
  fun x => le_refl (x + 1)

/-- Witness for C3 at a concrete (toy) controller implementation,
discharging the progress hypothesis. -/
theorem control_until_element_spec_witness :
    (∀ x : ℚ, ctrl_time toyTd x + 1 ≤ ctrl_time toyTd (toyStep x).2) ∧
    (control_until toyTd toyStep toyStep_progress 5 0).get? 0 =
      (if ∀ j : ℕ, j ≤ 0 → ctrl_time toyTd ((iter_step toyStep)^[j] (0 : ℚ)) ≤ 5 then
        some (toyStep ((iter_step toyStep)^[0] (0 : ℚ))).1
      else none) :=
  ⟨toyStep_progress,
    control_until_element_spec toyTd toyStep toyStep_progress 5 0 0⟩

theorem tpc_controlStep_step_size_floor (F : SpecialFns) (rng : ℕ → ℚ)
    (calc_rate : SimData → SimData → SimData → ℚ) (c : TPC)
    (h : (0.001 : ℚ) ≤ c.step_size) :
    (0.001 : ℚ) ≤ (TPC.controlStep F rng calc_rate c).2.step_size := by
  simp only [TPC.controlStep]
  split
  · split
    · norm_num
    · linarith [not_lt.mp (by assumption : ¬ c.step_size * 0.8 < 0.001)]
  · exact h

theorem rand_controlStep_step_size_floor (F : SpecialFns) (rng : ℕ → ℚ)
    (coin : ℕ → Bool) (c : RandC) (h : (0.001 : ℚ) ≤ c.step_size) :
    (0.001 : ℚ) ≤ (RandC.controlStep F rng coin c).2.step_size := by
  simp only [RandC.controlStep]
  split
  · split
    · norm_num
    · linarith [not_lt.mp (by assumption : ¬ c.step_size * 0.8 < 0.001)]
  · exact h

/-- C4: in both controller variants, starting from the initial `step_size` of
0.03, after any number of `control_step` invocations the `step_size` field is
still at least the floor 0.001, whatever the rate strategy, random stream and
coin stream do. -/
theorem step_size_never_below_floor (F : SpecialFns) (rng : ℕ → ℚ)
    (calc_rate : SimData → SimData → SimData → ℚ) (coin : ℕ → Bool)
    (sim : Sim) (n : ℕ) :
    (0.001 : ℚ) ≤
      ((fun c => (TPC.controlStep F rng calc_rate c).2)^[n] (TPC.from_sim sim)).step_size ∧
    (0.001 : ℚ) ≤
      ((fun c => (RandC.controlStep F rng coin c).2)^[n] (RandC.from_sim sim)).step_size := by
  constructor
  · induction n with
    | zero =>
      show (0.001 : ℚ) ≤ (TPC.from_sim sim).step_size
      show (0.001 : ℚ) ≤ 0.03
      norm_num
    | succ n ih =>
      rw [Function.iterate_succ_apply']
      exact tpc_controlStep_step_size_floor F rng calc_rate _ ih
  · induction n with
    | zero =>
      show (0.001 : ℚ) ≤ (RandC.from_sim sim).step_size
      show (0.001 : ℚ) ≤ 0.03
      norm_num
    | succ n ih =>
      rw [Function.iterate_succ_apply']
      exact rand_controlStep_step_size_floor F rng coin _ ih

theorem RandC.controlStep_last_rate (F : SpecialFns) (rng : ℕ → ℚ)
    (coin : ℕ → Bool) (c : RandC) :
    (RandC.controlStep F rng coin c).2.last_rate = c.last_rate := rfl

/-- C8: for every `RandController` reachable from `from_sim` by any number of
control steps, under any random and coin streams, the `rate` of the record
returned by `take_data` and of the record returned by `control_step` is
exactly 0: `control_step` always reports the literal 0 and never writes
`last_rate`, which starts at 0. -/
theorem rand_controller_rate_always_zero (F : SpecialFns) (rng : ℕ → ℚ)
    (coin : ℕ → Bool) (sim : Sim) (n : ℕ) :
    (RandC.takeData
        ((fun c => (RandC.controlStep F rng coin c).2)^[n] (RandC.from_sim sim))).rate = 0 ∧
    (RandC.controlStep F rng coin
        ((fun c => (RandC.controlStep F rng coin c).2)^[n] (RandC.from_sim sim))).1.rate = 0 := by
  have hlast : ∀ m : ℕ,
      ((fun c => (RandC.controlStep F rng coin c).2)^[m] (RandC.from_sim sim)).last_rate = 0 := by
    intro m
    induction m with
    | zero =>
      show (RandC.from_sim sim).last_rate = 0
      show (0.0 : ℚ) = 0
      norm_num
    | succ m ih =>
      rw [Function.iterate_succ_apply', RandC.controlStep_last_rate]
      exact ih
  constructor
  · show ((fun c => (RandC.controlStep F rng coin c).2)^[n] (RandC.from_sim sim)).last_rate = 0
    exact hlast n
  · show (0.0 : ℚ) = 0
    norm_num

/-- C6: for three collinear (time, pn) points with pairwise distinct times,
the steady-state extrapolation strategy computes a `second_deriv` (twice the
fitted quadratic leading coefficient) that is exactly zero, and its result is
the unguarded expression `pn(d2) - first_deriv^2 / second_deriv` — no floor,
sign check or other guard is interposed before the division. -/
theorem kval_collinear_second_deriv_zero (d1 d2 d3 : SimData) (m q : ℚ)
    (h1 : d1.pn = m * d1.time + q) (h2 : d2.pn = m * d2.time + q)
    (h3 : d3.pn = m * d3.time + q)
    (t12 : d1.time ≠ d2.time) (t13 : d1.time ≠ d3.time)
    (t23 : d2.time ≠ d3.time) :
    kval_second_deriv d1 d2 d3 = 0 ∧
    kval_calc_rate d1 d2 d3 =
      d2.pn - kval_first_deriv d1 d2 d3 * kval_first_deriv d1 d2 d3 /
        kval_second_deriv d1 d2 d3 := by
  have ha : kval_a d1 d2 d3 = 0 := by
    simp only [kval_a]
    have hnum : d1.pn * (d2.time - d3.time) + d2.pn * (d3.time - d1.time) +
        d3.pn * (d1.time - d2.time) = 0 := by
      rw [h1, h2, h3]
      ring
    rw [hnum, zero_div]
  constructor
  · simp only [kval_second_deriv, ha]
    ring
  · rfl

/-- First collinear sample point for the C6 witness. -/
def colPt1 : SimData :=
  { time := 0, pn := 1, pe := 0, frequency := 0, c := 0, temperature := 0, dose := 0 }

def colPt2 : SimData :=
  { time := 1, pn := 2, pe := 0, frequency := 0, c := 0, temperature := 0, dose := 0 }

def colPt3 : SimData :=
  { time := 2, pn := 3, pe := 0, frequency := 0, c := 0, temperature := 0, dose := 0 }

/-- Witness for C6 on three concrete collinear points. -/
theorem kval_collinear_second_deriv_zero_witness :
    (colPt1.pn = 1 * colPt1.time + 1) ∧ (colPt2.pn = 1 * colPt2.time + 1) ∧
    (colPt3.pn = 1 * colPt3.time + 1) ∧
    (colPt1.time ≠ colPt2.time) ∧ (colPt1.time ≠ colPt3.time) ∧
    (colPt2.time ≠ colPt3.time) ∧
    (kval_second_deriv colPt1 colPt2 colPt3 = 0 ∧
      kval_calc_rate colPt1 colPt2 colPt3 =
        colPt2.pn - kval_first_deriv colPt1 colPt2 colPt3 *
          kval_first_deriv colPt1 colPt2 colPt3 /
          kval_second_deriv colPt1 colPt2 colPt3) :=
  ⟨by norm_num [colPt1, colPt2], by norm_num [colPt2], by norm_num [colPt3],
    by norm_num [colPt1, colPt2], by norm_num [colPt1, colPt3],
    by norm_num [colPt2, colPt3],
    kval_collinear_second_deriv_zero colPt1 colPt2 colPt3 1 1
      (by norm_num [colPt1]) (by norm_num [colPt2]) (by norm_num [colPt3])
      (by norm_num [colPt1, colPt2]) (by norm_num [colPt1, colPt3])
      (by norm_num [colPt2, colPt3])⟩

/-- C10: for three snapshots with equally spaced, strictly increasing times,
the midpoint-slope strategy and the two-slope-average strategy both compute
exactly `(pn3 - pn1) / (time3 - time1)`. -/
theorem std_strategies_agree (d1 d2 d3 : SimData)
    (hpos : 0 < d2.time - d1.time)
    (heq : d3.time - d2.time = d2.time - d1.time) :
    std_calc_rate d1 d2 d3 = (d3.pn - d1.pn) / (d3.time - d1.time) ∧
    std2_calc_rate d1 d2 d3 = (d3.pn - d1.pn) / (d3.time - d1.time) := by
  have hne : d2.time - d1.time ≠ 0 := ne_of_gt hpos
  have h3 : d3.time = 2 * d2.time - d1.time := by linarith
  constructor
  · simp only [std_calc_rate]
    rw [h3]
    have hden : (2 * d2.time - d1.time + d2.time) / 2.0 - (d2.time + d1.time) / 2.0 =
        d2.time - d1.time := by ring
    have hden2 : 2 * d2.time - d1.time - d1.time = 2 * (d2.time - d1.time) := by ring
    rw [hden, hden2]
    rw [div_eq_div_iff hne (by positivity)]
    ring
  · simp only [std2_calc_rate]
    rw [h3]
    have hd2 : 2 * d2.time - d1.time - d2.time = d2.time - d1.time := by ring
    have hd3 : 2 * d2.time - d1.time - d1.time = 2 * (d2.time - d1.time) := by ring
    rw [hd2, hd3]
    rw [div_add_div _ _ hne hne, div_div]
    rw [div_eq_div_iff (by positivity) (by positivity)]
    ring

def eqPt1 : SimData :=
  { time := 0, pn := 1.0, pe := 0, frequency := 0, c := 0, temperature := 0, dose := 0 }

def eqPt2 : SimData :=
  { time := 1, pn := 1.2, pe := 0, frequency := 0, c := 0, temperature := 0, dose := 0 }

def eqPt3 : SimData :=
  { time := 2, pn := 1.3, pe := 0, frequency := 0, c := 0, temperature := 0, dose := 0 }

/-- Witness for C10 on the golden-value sample points (times 0, 1, 2 and
polarizations 1.0, 1.2, 1.3). -/
theorem std_strategies_agree_witness :
    (0 < eqPt2.time - eqPt1.time) ∧
    (eqPt3.time - eqPt2.time = eqPt2.time - eqPt1.time) ∧
    (std_calc_rate eqPt1 eqPt2 eqPt3 = (eqPt3.pn - eqPt1.pn) / (eqPt3.time - eqPt1.time) ∧
      std2_calc_rate eqPt1 eqPt2 eqPt3 = (eqPt3.pn - eqPt1.pn) / (eqPt3.time - eqPt1.time)) :=
  ⟨by norm_num [eqPt1, eqPt2], by norm_num [eqPt1, eqPt2, eqPt3],
    std_strategies_agree eqPt1 eqPt2 eqPt3
      (by norm_num [eqPt1, eqPt2]) (by norm_num [eqPt1, eqPt2, eqPt3])⟩

/-- The freshness invariant of the transition coefficients: `alpha` and `beta`
are exactly the values recomputed from the current `freq` and `dose`. -/
def ratesOk (F : SpecialFns) (s : Sim) : Prop :=
  s.alpha = (transitionRatesAB F s.freq s.dose).1 ∧
  s.beta = (transitionRatesAB F s.freq s.dose).2

theorem ratesOk_calc (F : SpecialFns) (s : Sim) :
    ratesOk F (calc_transition_rates F s) :=
  ⟨rfl, rfl⟩

theorem ratesOk_of_fields_eq (F : SpecialFns) {s s' : Sim}
    (hf : s'.freq = s.freq) (hd : s'.dose = s.dose)
    (ha : s'.alpha = s.alpha) (hb : s'.beta = s.beta)
    (h : ratesOk F s) : ratesOk F s' := by
  rw [ratesOk, hf, hd, ha, hb]
  exact h

theorem ratesOk_substep (F : SpecialFns) (a b c d : ℚ) (s : Sim) :
    ratesOk F (substep F a b c d s) :=
  ⟨rfl, rfl⟩

theorem ratesOk_iterate_substep (F : SpecialFns) (k t kp ps : ℚ) (s : Sim) :
    ratesOk F ((substep F k t kp ps)^[N_ITER] s) := by
  have hN : N_ITER = 999 + 1 := by norm_num [N_ITER]
  rw [hN, Function.iterate_succ_apply']
  exact ratesOk_substep F k t kp ps _

theorem ratesOk_pn_update (F : SpecialFns) (X : Sim) (p : ℚ) (i : ℕ)
    (h : ratesOk F X) : ratesOk F { X with pn := p, rngIdx := i } :=
  ratesOk_of_fields_eq F rfl rfl rfl rfl h

theorem ratesOk_time_step (F : SpecialFns) (rng : ℕ → ℚ) (s : Sim) :
    ratesOk F (time_step F rng s) := by
  simp only [time_step]
  exact ratesOk_pn_update F _ _ _ (ratesOk_iterate_substep F _ _ _ _ s)

theorem ratesOk_iterate_time_step (F : SpecialFns) (rng : ℕ → ℚ) (s : Sim)
    (n : ℕ) (h : ratesOk F s) : ratesOk F ((time_step F rng)^[n] s) := by
  cases n with
  | zero => exact h
  | succ n =>
    rw [Function.iterate_succ_apply']
    exact ratesOk_time_step F rng _

theorem ratesOk_run_until (F : SpecialFns) (rng : ℕ → ℚ) (t_final : ℚ)
    (s : Sim) (h : ratesOk F s) : ratesOk F ((run_until F rng t_final s).2) := by
  rw [run_until_snd]
  exact ratesOk_iterate_time_step F rng s _ h

/-- C5: after `set_freq(f)` the transition coefficients are exactly the pair
recomputed from `f` and the current dose, and an immediate snapshot reports
frequency `f`; the invariant is established by `build` and by `time_step`
(which recomputes the coefficients each substep, after the dose update), and
is preserved by every other public operation. -/
theorem transition_rates_never_stale (F : SpecialFns) (rng : ℕ → ℚ)
    (f temp cur dur atemp t_final : ℚ) (b : SimBuilder) (s : Sim) :
    ratesOk F (set_freq F f s) ∧
    (take_data (set_freq F f s)).frequency = f ∧
    ratesOk F (SimBuilder.build F b) ∧
    ratesOk F (time_step F rng s) ∧
    (ratesOk F s →
      ratesOk F (set_system_temperature temp s) ∧
      ratesOk F (beam_on cur s) ∧
      ratesOk F (beam_off s) ∧
      ratesOk F (anneal F dur atemp s) ∧
      ratesOk F ((run_until F rng t_final s).2) ∧
      ratesOk F ((run_for F rng dur s).2)) := by
  refine ⟨ratesOk_calc F _, rfl, ?_, ratesOk_time_step F rng s, ?_⟩
  · exact ratesOk_of_fields_eq F rfl rfl rfl rfl
      (ratesOk_of_fields_eq F rfl rfl rfl rfl (ratesOk_calc F _))
  · intro h
    refine ⟨ratesOk_of_fields_eq F rfl rfl rfl rfl h,
      ratesOk_of_fields_eq F rfl rfl rfl rfl h,
      ratesOk_of_fields_eq F rfl rfl rfl rfl h,
      ratesOk_of_fields_eq F rfl rfl rfl rfl h,
      ratesOk_run_until F rng t_final s h,
      ratesOk_run_until F rng (s.t + dur) s h⟩

/-- Witness for C5 at a concrete interpretation and simulation, discharging
the invariant hypothesis of the preservation part. -/
theorem transition_rates_never_stale_witness :
    ratesOk trivialFns sampleSim ∧
    ratesOk trivialFns (set_freq trivialFns 140.2 sampleSim) ∧
    (take_data (set_freq trivialFns 140.2 sampleSim)).frequency = 140.2 ∧
    ratesOk trivialFns (time_step trivialFns zeroRng sampleSim) ∧
    ratesOk trivialFns (beam_on 100 sampleSim) ∧
    ratesOk trivialFns ((run_until trivialFns zeroRng 3 sampleSim).2) := by
  have h0 : ratesOk trivialFns sampleSim := ⟨rfl, rfl⟩
  have main := transition_rates_never_stale trivialFns zeroRng 140.2 1.5 100 2 1 3
    (SimBuilder.new 140.15) sampleSim
  exact ⟨h0, main.1, main.2.1, main.2.2.2.1,
    (main.2.2.2.2 h0).2.1, (main.2.2.2.2 h0).2.2.2.2.1⟩

/-- Projection that forgets the noisy observable `pn` (the only field the
random draws may influence). -/
def eraseNoise (s : Sim) : Sim := { s with pn := 0 }

/-- The public operations of `Simulation`, as an operation alphabet: one run
applies a list of these in order. -/
inductive SimOp where
  | setFreqOp (f : ℚ)
  | setSystemTemperatureOp (temp : ℚ)
  | beamOnOp (cur : ℚ)
  | beamOffOp
  | annealOp (dur temp : ℚ)
  | timeStepOp
  | runUntilOp (t_final : ℚ)
  | runForOp (dur : ℚ)

/-- Interpretation of one operation on the simulation state. -/
def execOp (F : SpecialFns) (rng : ℕ → ℚ) : SimOp → Sim → Sim
  | SimOp.setFreqOp f, s => set_freq F f s
  | SimOp.setSystemTemperatureOp temp, s => set_system_temperature temp s
  | SimOp.beamOnOp cur, s => beam_on cur s
  | SimOp.beamOffOp, s => beam_off s
  | SimOp.annealOp dur temp, s => anneal F dur temp s
  | SimOp.timeStepOp, s => time_step F rng s
  | SimOp.runUntilOp t_final, s => (run_until F rng t_final s).2
  | SimOp.runForOp dur, s => (run_for F rng dur s).2

/-- Run a list of operations in order. -/
def runOps (F : SpecialFns) (rng : ℕ → ℚ) (ops : List SimOp) (s : Sim) : Sim :=
  ops.foldl (fun s op => execOp F rng op s) s

theorem substep_pn_override (F : SpecialFns) (a b c d : ℚ) (s : Sim) (p : ℚ) :
    substep F a b c d { s with pn := p } = { substep F a b c d s with pn := p } := rfl

theorem iterate_substep_pn (F : SpecialFns) (a b c d : ℚ) :
    ∀ (n : ℕ) (s : Sim) (p : ℚ),
      (substep F a b c d)^[n] { s with pn := p } =
        { (substep F a b c d)^[n] s with pn := p } := by
  intro n
  induction n with
  | zero => intro s p; rfl
  | succ n ih =>
    intro s p
    rw [Function.iterate_succ_apply, Function.iterate_succ_apply, substep_pn_override]
    exact ih (substep F a b c d s) p

theorem time_step_pn_override (F : SpecialFns) (rng : ℕ → ℚ) (s : Sim) (p : ℚ) :
    time_step F rng { s with pn := p } = time_step F rng s := by
  simp only [time_step]
  rw [iterate_substep_pn]

theorem time_step_eq (F : SpecialFns) (rng : ℕ → ℚ) (s : Sim) :
    time_step F rng s =
      { (substep F 0.01 (s.system_temperature + s.beam_current / 100.0)
          (s.beam_current / 1e7) 0.001)^[N_ITER] s with
        pn := pn_noisy
          ((substep F 0.01 (s.system_temperature + s.beam_current / 100.0)
            (s.beam_current / 1e7) 0.001)^[N_ITER] s).pn_raw
          (rng ((substep F 0.01 (s.system_temperature + s.beam_current / 100.0)
            (s.beam_current / 1e7) 0.001)^[N_ITER] s).rngIdx)
          (rng (((substep F 0.01 (s.system_temperature + s.beam_current / 100.0)
            (s.beam_current / 1e7) 0.001)^[N_ITER] s).rngIdx + 1))
        rngIdx := ((substep F 0.01 (s.system_temperature + s.beam_current / 100.0)
          (s.beam_current / 1e7) 0.001)^[N_ITER] s).rngIdx + 2 } := rfl

theorem time_step_rng_align (F : SpecialFns) (rng₁ rng₂ : ℕ → ℚ) (s : Sim) :
    time_step F rng₂ s = { time_step F rng₁ s with pn := (time_step F rng₂ s).pn } := by
  rw [time_step_eq F rng₁ s, time_step_eq F rng₂ s]

theorem iterate_time_step_align (F : SpecialFns) (rng₁ rng₂ : ℕ → ℚ) :
    ∀ (n : ℕ) (s : Sim) (p₁ p₂ : ℚ),
      ∃ q, (time_step F rng₂)^[n] { s with pn := p₂ } =
        { (time_step F rng₁)^[n] { s with pn := p₁ } with pn := q } := by
  intro n
  induction n with
  | zero => intro s p₁ p₂; exact ⟨p₂, rfl⟩
  | succ n ih =>
    intro s p₁ p₂
    obtain ⟨q, hq⟩ := ih s p₁ p₂
    refine ⟨(time_step F rng₂ ((time_step F rng₁)^[n] { s with pn := p₁ })).pn, ?_⟩
    rw [Function.iterate_succ_apply', Function.iterate_succ_apply', hq,
      time_step_pn_override]
    exact time_step_rng_align F rng₁ rng₂ _

theorem execOp_align (F : SpecialFns) (rng₁ rng₂ : ℕ → ℚ) (op : SimOp)
    (s : Sim) (p₁ p₂ : ℚ) :
    ∃ q, execOp F rng₂ op { s with pn := p₂ } =
      { execOp F rng₁ op { s with pn := p₁ } with pn := q } := by
  cases op with
  | setFreqOp f => exact ⟨p₂, rfl⟩
  | setSystemTemperatureOp temp => exact ⟨p₂, rfl⟩
  | beamOnOp cur => exact ⟨p₂, rfl⟩
  | beamOffOp => exact ⟨p₂, rfl⟩
  | annealOp dur temp => exact ⟨p₂, rfl⟩
  | timeStepOp =>
    refine ⟨(time_step F rng₂ s).pn, ?_⟩
    have h2 : execOp F rng₂ SimOp.timeStepOp { s with pn := p₂ } = time_step F rng₂ s :=
      time_step_pn_override F rng₂ s p₂
    have h1 : execOp F rng₁ SimOp.timeStepOp { s with pn := p₁ } = time_step F rng₁ s :=
      time_step_pn_override F rng₁ s p₁
    rw [h2, h1]
    exact time_step_rng_align F rng₁ rng₂ s
  | runUntilOp t_final =>
    obtain ⟨q, hq⟩ :=
      iterate_time_step_align F rng₁ rng₂ (Nat.ceil (t_final - s.t)) s p₁ p₂
    refine ⟨q, ?_⟩
    have h2 : execOp F rng₂ (SimOp.runUntilOp t_final) { s with pn := p₂ } =
        (run_until F rng₂ t_final { s with pn := p₂ }).2 := rfl
    have h1 : execOp F rng₁ (SimOp.runUntilOp t_final) { s with pn := p₁ } =
        (run_until F rng₁ t_final { s with pn := p₁ }).2 := rfl
    rw [h2, h1, run_until_snd, run_until_snd]
    exact hq
  | runForOp dur =>
    obtain ⟨q, hq⟩ :=
      iterate_time_step_align F rng₁ rng₂ (Nat.ceil (s.t + dur - s.t)) s p₁ p₂
    refine ⟨q, ?_⟩
    have h2 : execOp F rng₂ (SimOp.runForOp dur) { s with pn := p₂ } =
        (run_until F rng₂ (({ s with pn := p₂ } : Sim).t + dur) { s with pn := p₂ }).2 := rfl
    have h1 : execOp F rng₁ (SimOp.runForOp dur) { s with pn := p₁ } =
        (run_until F rng₁ (({ s with pn := p₁ } : Sim).t + dur) { s with pn := p₁ }).2 := rfl
    rw [h2, h1, run_until_snd, run_until_snd]
    exact hq

theorem runOps_core (F : SpecialFns) (rng₁ rng₂ : ℕ → ℚ) :
    ∀ (ops : List SimOp) (s : Sim) (p₁ p₂ : ℚ),
      eraseNoise (runOps F rng₁ ops { s with pn := p₁ }) =
        eraseNoise (runOps F rng₂ ops { s with pn := p₂ }) := by
  intro ops
  induction ops with
  | nil => intro s p₁ p₂; rfl
  | cons op ops ih =>
    intro s p₁ p₂
    show eraseNoise (runOps F rng₁ ops (execOp F rng₁ op { s with pn := p₁ })) =
      eraseNoise (runOps F rng₂ ops (execOp F rng₂ op { s with pn := p₂ }))
    obtain ⟨q, hq⟩ := execOp_align F rng₁ rng₂ op s p₁ p₂
    rw [hq]
    have hself : execOp F rng₁ op { s with pn := p₁ } =
        { execOp F rng₁ op { s with pn := p₁ } with
          pn := (execOp F rng₁ op { s with pn := p₁ }).pn } := rfl
    conv_lhs => rw [hself]
    exact ih (execOp F rng₁ op { s with pn := p₁ }) _ q

/-- C9: two runs of the same operation sequence from the same initial state,
differing only in the random streams, produce states that agree on every field
except the noisy observable `pn`; in particular the trajectories of `t`,
`pn_raw`, `pe`, `temperature`, `phi`, `c`, `dose`, `alpha` and `beta` are
identical, so the noise never feeds back into the integration dynamics. -/
theorem noise_draws_affect_only_pn (F : SpecialFns) (rng₁ rng₂ : ℕ → ℚ)
    (ops : List SimOp) (s : Sim) :
    eraseNoise (runOps F rng₁ ops s) = eraseNoise (runOps F rng₂ ops s) ∧
    (runOps F rng₁ ops s).t = (runOps F rng₂ ops s).t ∧
    (runOps F rng₁ ops s).pn_raw = (runOps F rng₂ ops s).pn_raw ∧
    (runOps F rng₁ ops s).pe = (runOps F rng₂ ops s).pe ∧
    (runOps F rng₁ ops s).temperature = (runOps F rng₂ ops s).temperature ∧
    (runOps F rng₁ ops s).phi = (runOps F rng₂ ops s).phi ∧
    (runOps F rng₁ ops s).c = (runOps F rng₂ ops s).c ∧
    (runOps F rng₁ ops s).dose = (runOps F rng₂ ops s).dose ∧
    (runOps F rng₁ ops s).alpha = (runOps F rng₂ ops s).alpha ∧
    (runOps F rng₁ ops s).beta = (runOps F rng₂ ops s).beta := by
  have h : eraseNoise (runOps F rng₁ ops s) = eraseNoise (runOps F rng₂ ops s) :=
    runOps_core F rng₁ rng₂ ops s s.pn s.pn
  have ht := congrArg Sim.t h
  have hpnr := congrArg Sim.pn_raw h
  have hpe := congrArg Sim.pe h
  have htemp := congrArg Sim.temperature h
  have hphi := congrArg Sim.phi h
  have hc := congrArg Sim.c h
  have hdose := congrArg Sim.dose h
  have halpha := congrArg Sim.alpha h
  have hbeta := congrArg Sim.beta h
  exact ⟨h, ht, hpnr, hpe, htemp, hphi, hc, hdose, halpha, hbeta⟩

/-- `MS_PER_SWEEP` (pdp.rs). -/
def MS_PER_SWEEP : ℚ := 64.0

/-- `SWEEP_UNCERTAINTY` (pdp.rs): the fractional error in polarization per
sweep. -/
def SWEEP_UNCERTAINTY : ℚ := 0.04

/-- Modelled from the spec: pdp.rs is compiled against a `Simulation` version
(exporting `Data` and a mutating `run_for(duration, step_size)` taking an
explicit internal step size) that is not present under src — only its caller
pdp.rs is.  Following spec §4.1/§4.2 we abstract that integrator as an
interface: `runFor duration stepSize` advances the state, `takeData` reads the
point-in-time snapshot (same observable fields as `SimData`). -/
structure IntegratorModel (σ : Type) where
  runFor : ℚ → ℚ → σ → σ
  takeData : σ → SimData

/-- The state of `struct Pdp` (pdp.rs), plus `rngIdx` for the per-sweep noise
draws. -/
structure PdpState (σ : Type) where
  sim : σ
  n_sweeps : ℕ
  rngIdx : ℕ

/-- `Pdp::sweep` (pdp.rs): advance the underlying integrator by
`MS_PER_SWEEP / 1000.0` (64 ms) with internal step size 0.001, take a
snapshot, and fuzz its polarization by `SWEEP_UNCERTAINTY * (draw - 0.5)`. -/
def Pdp.sweep {σ : Type} (I : IntegratorModel σ) (rng : ℕ → ℚ)
    (p : PdpState σ) : SimData × PdpState σ :=
  let sim' := I.runFor (MS_PER_SWEEP / 1000.0) 0.001 p.sim
  let sweep_data := I.takeData sim'
  ({ sweep_data with pn := sweep_data.pn + SWEEP_UNCERTAINTY * (rng p.rngIdx - 0.5) },
    { p with sim := sim', rngIdx := p.rngIdx + 1 })

/-- `Pdp::take_data` (pdp.rs): sum the fuzzed polarization over `n_sweeps`
sweeps, divide by the sweep count, and return the current (post-final-sweep)
snapshot with its polarization replaced by that average. -/
def Pdp.takeData {σ : Type} (I : IntegratorModel σ) (rng : ℕ → ℚ)
    (p : PdpState σ) : SimData × PdpState σ :=
  let acc := (List.range p.n_sweeps).foldl
    (fun (a : ℚ × PdpState σ) _ =>
      let r := Pdp.sweep I rng a.2
      (a.1 + r.1.pn, r.2))
    (0.0, p)
  let pn := acc.1 / (p.n_sweeps : ℚ)
  let data := I.takeData acc.2.sim
  ({ data with pn := pn }, acc.2)

/-- One sub-run of the sweep sampler: 64 ms at internal step size 0.001. -/
def pdpSubRun {σ : Type} (I : IntegratorModel σ) : σ → σ :=
  I.runFor (MS_PER_SWEEP / 1000.0) 0.001

/-- The i-th noisy per-sweep polarization reading of one `take_data` call. -/
def pdpNoisyReading {σ : Type} (I : IntegratorModel σ) (rng : ℕ → ℚ)
    (p : PdpState σ) (i : ℕ) : ℚ :=
  (I.takeData ((pdpSubRun I)^[i + 1] p.sim)).pn +
    SWEEP_UNCERTAINTY * (rng (p.rngIdx + i) - 0.5)

theorem pdp_fold_spec {σ : Type} (I : IntegratorModel σ) (rng : ℕ → ℚ)
    (p : PdpState σ) :
    ∀ n : ℕ,
      (List.range n).foldl
        (fun (a : ℚ × PdpState σ) _ =>
          let r := Pdp.sweep I rng a.2
          (a.1 + r.1.pn, r.2))
        (0.0, p)
      = (((List.range n).map (pdpNoisyReading I rng p)).sum,
          { p with sim := (pdpSubRun I)^[n] p.sim, rngIdx := p.rngIdx + n }) := by
  intro n
  induction n with
  | zero =>
    show ((0.0 : ℚ), p) = _
    refine Prod.ext ?_ ?_
    · show (0.0 : ℚ) = ([] : List ℚ).sum
      norm_num
    · rfl
  | succ n ih =>
    rw [List.range_succ, List.foldl_append, ih, List.map_append, List.sum_append]
    have hsweep_pn :
        (Pdp.sweep I rng
          ({ sim := (pdpSubRun I)^[n] p.sim, n_sweeps := p.n_sweeps,
             rngIdx := p.rngIdx + n } : PdpState σ)).1.pn =
          pdpNoisyReading I rng p n := by
      rw [pdpNoisyReading, Function.iterate_succ_apply']
      rfl
    have hsweep_st :
        (Pdp.sweep I rng
          ({ sim := (pdpSubRun I)^[n] p.sim, n_sweeps := p.n_sweeps,
             rngIdx := p.rngIdx + n } : PdpState σ)).2 =
          ({ sim := (pdpSubRun I)^[n + 1] p.sim, n_sweeps := p.n_sweeps,
             rngIdx := p.rngIdx + (n + 1) } : PdpState σ) := by
      rw [Function.iterate_succ_apply']
      rfl
    simp only [List.foldl_cons, List.foldl_nil]
    refine Prod.ext ?_ ?_
    · simp only [hsweep_pn, List.map_cons, List.map_nil, List.sum_cons, List.sum_nil]
      ring
    · simp only [hsweep_st]

/-- C7: one `take_data()` of the sweep sampler performs `n_sweeps` sub-runs,
each advancing the integrator by the fixed 64 ms duration at the finer
internal step 0.001; the i-th per-sweep reading is the polarization after
sub-run i+1 plus an independent additive uniform fuzz of amplitude 0.02 (2%,
namely `0.04 * (draw - 0.5)` for a draw in `[0, 1)`); the returned snapshot
carries the arithmetic mean of those readings as its polarization, every
other field being read from the integrator state after the final sub-run. -/
theorem pdp_take_data_spec {σ : Type} (I : IntegratorModel σ) (rng : ℕ → ℚ)
    (p : PdpState σ) (h : 1 ≤ p.n_sweeps) :
    (Pdp.takeData I rng p).1.pn =
      ((List.range p.n_sweeps).map (pdpNoisyReading I rng p)).sum / (p.n_sweeps : ℚ) ∧
    (Pdp.takeData I rng p).2.sim = (pdpSubRun I)^[p.n_sweeps] p.sim ∧
    (Pdp.takeData I rng p).1.time =
      (I.takeData ((pdpSubRun I)^[p.n_sweeps] p.sim)).time ∧
    (Pdp.takeData I rng p).1.pe =
      (I.takeData ((pdpSubRun I)^[p.n_sweeps] p.sim)).pe ∧
    (Pdp.takeData I rng p).1.frequency =
      (I.takeData ((pdpSubRun I)^[p.n_sweeps] p.sim)).frequency ∧
    (Pdp.takeData I rng p).1.c =
      (I.takeData ((pdpSubRun I)^[p.n_sweeps] p.sim)).c ∧
    (Pdp.takeData I rng p).1.temperature =
      (I.takeData ((pdpSubRun I)^[p.n_sweeps] p.sim)).temperature ∧
    (Pdp.takeData I rng p).1.dose =
      (I.takeData ((pdpSubRun I)^[p.n_sweeps] p.sim)).dose ∧
    (∀ u : ℚ, 0 ≤ u → u < 1 →
      -(2 / 100) ≤ SWEEP_UNCERTAINTY * (u - 0.5) ∧
        SWEEP_UNCERTAINTY * (u - 0.5) < 2 / 100) := by
  have hfold := pdp_fold_spec I rng p p.n_sweeps
  constructor
  · show ((List.range p.n_sweeps).foldl _ (0.0, p)).1 / (p.n_sweeps : ℚ) = _
    rw [hfold]
  refine ⟨?_, ?_, ?_, ?_, ?_, ?_, ?_, ?_⟩
  · show ((List.range p.n_sweeps).foldl _ (0.0, p)).2.sim = _
    rw [hfold]
  · show (I.takeData ((List.range p.n_sweeps).foldl _ (0.0, p)).2.sim).time = _
    rw [hfold]
  · show (I.takeData ((List.range p.n_sweeps).foldl _ (0.0, p)).2.sim).pe = _
    rw [hfold]
  · show (I.takeData ((List.range p.n_sweeps).foldl _ (0.0, p)).2.sim).frequency = _
    rw [hfold]
  · show (I.takeData ((List.range p.n_sweeps).foldl _ (0.0, p)).2.sim).c = _
    rw [hfold]
  · show (I.takeData ((List.range p.n_sweeps).foldl _ (0.0, p)).2.sim).temperature = _
    rw [hfold]
  · show (I.takeData ((List.range p.n_sweeps).foldl _ (0.0, p)).2.sim).dose = _
    rw [hfold]
  · intro u hu0 hu1
    constructor
    · rw [SWEEP_UNCERTAINTY]
      nlinarith
    · rw [SWEEP_UNCERTAINTY]
      nlinarith

/-- Toy integrator used only to witness C7 on a concrete input. -/
def toyIntegrator : IntegratorModel ℕ :=
  { runFor := fun _ _ s => s + 1
    takeData := fun s =>
      { time := s, pn := s, pe := 0, frequency := 0, c := 0,
        temperature := 0, dose := 0 } }

def toyPdp : PdpState ℕ := { sim := 0, n_sweeps := 2, rngIdx := 0 }

/-- Witness for C7, discharging the positive sweep-count hypothesis. -/
theorem pdp_take_data_spec_witness :
    1 ≤ toyPdp.n_sweeps ∧
    ((Pdp.takeData toyIntegrator zeroRng toyPdp).1.pn =
      ((List.range toyPdp.n_sweeps).map
        (pdpNoisyReading toyIntegrator zeroRng toyPdp)).sum / (toyPdp.n_sweeps : ℚ) ∧
    (Pdp.takeData toyIntegrator zeroRng toyPdp).2.sim =
      (pdpSubRun toyIntegrator)^[toyPdp.n_sweeps] toyPdp.sim ∧
    (Pdp.takeData toyIntegrator zeroRng toyPdp).1.time =
      (toyIntegrator.takeData
        ((pdpSubRun toyIntegrator)^[toyPdp.n_sweeps] toyPdp.sim)).time ∧
    (Pdp.takeData toyIntegrator zeroRng toyPdp).1.pe =
      (toyIntegrator.takeData
        ((pdpSubRun toyIntegrator)^[toyPdp.n_sweeps] toyPdp.sim)).pe ∧
    (Pdp.takeData toyIntegrator zeroRng toyPdp).1.frequency =
      (toyIntegrator.takeData
        ((pdpSubRun toyIntegrator)^[toyPdp.n_sweeps] toyPdp.sim)).frequency ∧
    (Pdp.takeData toyIntegrator zeroRng toyPdp).1.c =
      (toyIntegrator.takeData
        ((pdpSubRun toyIntegrator)^[toyPdp.n_sweeps] toyPdp.sim)).c ∧
    (Pdp.takeData toyIntegrator zeroRng toyPdp).1.temperature =
      (toyIntegrator.takeData
        ((pdpSubRun toyIntegrator)^[toyPdp.n_sweeps] toyPdp.sim)).temperature ∧
    (Pdp.takeData toyIntegrator zeroRng toyPdp).1.dose =
      (toyIntegrator.takeData
        ((pdpSubRun toyIntegrator)^[toyPdp.n_sweeps] toyPdp.sim)).dose ∧
    (∀ u : ℚ, 0 ≤ u → u < 1 →
      -(2 / 100) ≤ SWEEP_UNCERTAINTY * (u - 0.5) ∧
        SWEEP_UNCERTAINTY * (u - 0.5) < 2 / 100)) :=
  ⟨by norm_num [toyPdp],
    pdp_take_data_spec toyIntegrator zeroRng toyPdp (by norm_num [toyPdp])⟩

end Polsim
